/-
Verification of the gazette segmentation and metadata-assembly pipeline
(PDF_TO_RAW_TXT.py / TXT_PROCESSING.py / JSON_HEADER.py / DIVIDE_TXT.py /
people.py).

Text is modelled as `List Char` (`Str`), and the Python string operations
used by the source are translated one-by-one below.  Python's whitespace
set for `str.split` / `str.strip` is modelled by `charWs` (the six ASCII
whitespace characters); `str.lower` is modelled on the ASCII letters plus
the Portuguese accented letters that occur in the source's data tables.
The external spaCy tagger is a parameter (`tagger : Str → List Str`),
matching the spec's "EntityTagger capability" contract; its declarative
entity patterns are not re-verified here — the segmentation logic consumes
tagged spans, which we model as explicit entity lists on a tokenised
document.
-/
import Mathlib

abbrev Str := List Char

def toStr (s : String) : Str := s.data

/-- Python whitespace for `str.split()` / `str.strip()` (ASCII part). -/
def charWs (c : Char) : Bool :=
  c = ' ' || c = '\t' || c = '\n' || c = '\r' || c = '\x0b' || c = '\x0c'

/-- Python `s.strip()`. -/
def pyStrip (s : Str) : Str :=
  ((s.dropWhile charWs).reverse.dropWhile charWs).reverse

/-- Python `s.split()`: split on whitespace runs, dropping empty pieces. -/
def wordsOf : Str → List Str
  | [] => []
  | c :: rest =>
    if charWs c then wordsOf rest
    else
      match rest, wordsOf rest with
      | [], _ => [[c]]
      | d :: _, ws =>
        if charWs d then [c] :: ws
        else
          match ws with
          | [] => [[c]]
          | w :: tl => (c :: w) :: tl

/-- Python `" ".join(ws)`. -/
def joinWords : List Str → Str
  | [] => []
  | [w] => w
  | w :: ws => w ++ ' ' :: joinWords ws

/-- Python `" ".join(s.split())`: collapse internal whitespace runs. -/
def normWs (s : Str) : Str := joinWords (wordsOf s)

/-- The case-folding table for the characters the source manipulates:
ASCII `A`–`Z` plus the Portuguese uppercase accented letters. -/
def lowerTable : List (Char × Char) :=
  [('A', 'a'), ('B', 'b'), ('C', 'c'), ('D', 'd'), ('E', 'e'), ('F', 'f'),
   ('G', 'g'), ('H', 'h'), ('I', 'i'), ('J', 'j'), ('K', 'k'), ('L', 'l'),
   ('M', 'm'), ('N', 'n'), ('O', 'o'), ('P', 'p'), ('Q', 'q'), ('R', 'r'),
   ('S', 's'), ('T', 't'), ('U', 'u'), ('V', 'v'), ('W', 'w'), ('X', 'x'),
   ('Y', 'y'), ('Z', 'z'),
   ('Á', 'á'), ('É', 'é'), ('Í', 'í'), ('Ó', 'ó'), ('Ú', 'ú'),
   ('Â', 'â'), ('Ê', 'ê'), ('Ô', 'ô'), ('Ã', 'ã'), ('Õ', 'õ'),
   ('À', 'à'), ('Ç', 'ç')]

/-- Python `c.lower()` on one character (restricted to the alphabet above). -/
def pyLowerChar (c : Char) : Char :=
  (((lowerTable.find? (fun p => p.1 = c)).map (fun p => p.2)).getD c)

/-- Python `s.lower()`. -/
def pyLower (s : Str) : Str := s.map pyLowerChar

/-- Python `s.find(k, from)`: least index `i ≥ from` where `k` occurs in
`s`, `none` when Python would return `-1`. -/
def pyFindFrom (s k : Str) (start : Nat) : Option Nat :=
  (List.range (s.length + 1)).find? (fun i => start ≤ i && k.isPrefixOf (s.drop i))

/-- Python `s.find(k)`. -/
def pyFind (s k : Str) : Option Nat := pyFindFrom s k 0

def pyCountAux (s k : Str) : Nat → Nat → Nat
  | 0, _ => 0
  | fuel + 1, from_ =>
    match pyFindFrom s k from_ with
    | none => 0
    | some i => 1 + pyCountAux s k fuel (i + k.length)

/-- Python `s.count(k)`: number of non-overlapping occurrences. -/
def pyCount (s k : Str) : Nat :=
  if k = [] then s.length + 1 else pyCountAux s k (s.length + 1) 0

def pyReplaceAux (old new : Str) : Nat → Str → Str
  | 0, s => s
  | _ + 1, [] => []
  | fuel + 1, c :: rest =>
    if old ≠ [] && old.isPrefixOf (c :: rest) then
      new ++ pyReplaceAux old new fuel (List.drop (old.length - 1) rest)
    else
      c :: pyReplaceAux old new fuel rest

/-- Python `s.replace(old, new)` for non-empty `old` (the source always
replaces a non-empty banner string). -/
def pyReplace (s old new : Str) : Str := pyReplaceAux old new s.length s

/-- Python `s.rstrip('.')`. -/
def pyRstripDots (s : Str) : Str :=
  (s.reverse.dropWhile (fun c => c = '.')).reverse

/-- Python code-point comparison `a < b` on strings. -/
def lexLt : Str → Str → Bool
  | [], [] => false
  | [], _ :: _ => true
  | _ :: _, [] => false
  | a :: as, b :: bs => if a < b then true else if b < a then false else lexLt as bs

/-- Python `x in l` for a list of strings. -/
def memStr (x : Str) (l : List Str) : Bool := l.any (fun y => y = x)

/-! ### people.py — NameNormalizer -/

/-- people.py `TRIM_KEYWORDS`. -/
def TRIM_KEYWORDS : List Str := [toStr "anexo", toStr "nota curricular", toStr "secretaria"]

/-- people.py `UNWANTED_WORDS`. -/
def UNWANTED_WORDS : List Str :=
  [toStr "formação", toStr "profissional", toStr "infraestruturas", toStr "despacho",
   toStr "conjunto", toStr "madeira", toStr "câmara", toStr "chefe", toStr "estudos",
   toStr "coordenação", toStr "autoridade", toStr "assuntos", toStr "fiscais",
   toStr "regional", toStr "secretária", toStr "&", toStr "diretor", toStr "diretora",
   toStr "habilitações", toStr "literárias", toStr "professor", toStr "professora",
   toStr "convidado", toStr "convidada", toStr "sistemas", toStr "informação",
   toStr "tecnologias", toStr "especialista", toStr "recursos", toStr "humanos",
   toStr "apoio", toStr "família", toStr "idosa", toStr "idoso", toStr "assistente",
   toStr "vogal", toStr "conselho", toStr "diretivo", toStr "bilhete", toStr "identidade",
   toStr "inspetora", toStr "tributária", toStr "tributário", toStr "secundária",
   toStr "bolseiro", toStr "bolseira", toStr "investigador", toStr "investigadora"]

/-- people.py `NAME_TITLES`. -/
def NAME_TITLES : List Str :=
  [toStr "Licenciado", toStr "Licenciada", toStr "Doutor", toStr "Doutora",
   toStr "Mestre", toStr "Mestra", toStr "Mestrando", toStr "Mestranda",
   toStr "Doutorando", toStr "Doutoranda", toStr "Pós-Doutor", toStr "Pós-Doutora"]

/-- people.py `remove_single_word_entities`. -/
def remove_single_word_entities (entities : List Str) : List Str :=
  entities.filter (fun e => (wordsOf e).length > 1)

def trimCut (textLower : Str) (keywords : List Str) : Nat → Nat
  | cut => keywords.foldl
      (fun cut kw =>
        match pyFind textLower (pyLower kw) with
        | some i => if i < cut then i else cut
        | none => cut)
      cut

/-- people.py `trim_after_keywords`. -/
def trim_after_keywords (text : Str) (keywords : List Str) : Str :=
  pyStrip (text.take (trimCut (pyLower text) keywords text.length))

/-- Sort key of people.py `keep_shortest_prefix_entities`:
`(len(x.split()), x)` under Python tuple comparison. -/
def tokLexLe (a b : Str) : Prop :=
  (wordsOf a).length < (wordsOf b).length ∨
    ((wordsOf a).length = (wordsOf b).length ∧ (a = b ∨ lexLt a b = true))

instance : DecidableRel tokLexLe := fun a b => by
  unfold tokLexLe; infer_instance

def keepShortestGo : List Str → List Str → List Str
  | [], acc => acc
  | e :: rest, acc =>
    if acc.any (fun kept => (wordsOf kept).isPrefixOf (wordsOf e)) then
      keepShortestGo rest acc
    else
      keepShortestGo rest (acc ++ [e])

/-- people.py `keep_shortest_prefix_entities`.  Python's `set()` has no
specified iteration order; since the sort key `(token count, string)` is a
total order on the deduplicated strings, the sorted list is
order-independent, and we model `sorted(set(l), key=...)` as a stable
insertion sort of `l.dedup`. -/
def keep_shortest_entities (entities : List Str) : List Str :=
  keepShortestGo (List.insertionSort tokLexLe entities.dedup) []

/-- Length order used by people.py `normalize_and_deduplicate`
(`sorted(..., key=len)`). -/
def lenLe (a b : Str) : Prop := a.length ≤ b.length

instance : DecidableRel lenLe := fun a b => by unfold lenLe; infer_instance

instance : IsTotal Str lenLe := ⟨fun a b => Nat.le_total a.length b.length⟩

instance : IsTrans Str lenLe := ⟨fun _ _ _ h h' => Nat.le_trans h h'⟩

/-- people.py `normalize_and_deduplicate`.  As above, `sorted(set(...))`
with the (non-injective) key `len` is modelled as a stable insertion sort
of the deduplicated list; Python leaves the relative order of equal-length
distinct strings unspecified (set iteration order). -/
def normalize_and_deduplicate (entities : List Str) : List Str :=
  List.insertionSort lenLe (entities.map normWs).dedup

/-- people.py `remove_entities_with_unwanted_words`'s per-entity test:
`true` when the entity contains no unwanted word. -/
def noUnwantedWord (ent : Str) : Bool :=
  !(UNWANTED_WORDS.map pyLower).any (fun w => memStr w (wordsOf (pyLower ent)))

/-- people.py `remove_entities_with_unwanted_words` (with the fixed
`UNWANTED_WORDS` stoplist lowered, as in the source). -/
def remove_entities_with_unwanted_words (entities : List Str) : List Str :=
  entities.filter noUnwantedWord

/-- One entity of people.py `remove_titles_from_entities`: if the first
word (lowered, trailing periods stripped) is a title, drop it and re-join
the remaining words. -/
def stripLeadingTitle (titlesLower : List Str) (ent : Str) : Str :=
  match wordsOf (pyStrip ent) with
  | [] => ent
  | w :: ws =>
    if memStr (pyRstripDots (pyLower w)) titlesLower then joinWords ws else ent

/-- people.py `remove_titles_from_entities`. -/
def remove_titles_from_entities (entities titles : List Str) : List Str :=
  entities.map (stripLeadingTitle (titles.map pyLower))

/-! ### people.py — fallback regex extractor

`fallback_regex_name_extraction` matches
`\b(<title>)\s+([A-ZÁÉÍÓÚÂÊÔÃÕÀÇ][\w\-']+(?:\s+[A-ZÁÉÍÓÚÂÊÔÃÕÀÇ][\w\-']+)+)`
with `re.findall`.  The character classes are disjoint from `\s`, so the
greedy quantifiers are deterministic; alternation over the titles
backtracks in list order, which the parser below reproduces. -/

/-- The regex's uppercase class `[A-ZÁÉÍÓÚÂÊÔÃÕÀÇ]`. -/
def upperClassChar (c : Char) : Bool :=
  ('A' ≤ c && c ≤ 'Z') ||
    memStr [c] [[ 'Á'], ['É'], ['Í'], ['Ó'], ['Ú'], ['Â'], ['Ê'], ['Ô'], ['Ã'], ['Õ'], ['À'], ['Ç']]

/-- Python's `\w` restricted to the alphabet this development models:
ASCII alphanumerics, `_`, and the Portuguese accented letters. -/
def wordClassChar (c : Char) : Bool :=
  (c.isAlpha || c.isDigit || c = '_') ||
    (lowerTable.map (fun p => p.1)).any (fun d => d = c) ||
    (lowerTable.map (fun p => p.2)).any (fun d => d = c)

/-- The regex class `[\w\-']`. -/
def nameTailChar (c : Char) : Bool := wordClassChar c || c = '-' || c = '\''

/-- Parse one `[A-Z...][\w\-']+` name word at the head of `rest`; returns
the consumed characters. -/
def parseNameWord (rest : Str) : Option Str :=
  match rest with
  | [] => none
  | c :: tl =>
    if upperClassChar c then
      let tail := tl.takeWhile nameTailChar
      if tail = [] then none else some (c :: tail)
    else none

/-- Greedy `(?:\s+[A-Z...][\w\-']+)+` (zero-or-more tail repetitions after
the first; the caller enforces "at least one").  Captures the consumed
characters verbatim, whitespace included. -/
def parseNameReps : Nat → Str → Str
  | 0, _ => []
  | fuel + 1, rest =>
    let ws := rest.takeWhile charWs
    if ws = [] then []
    else
      match parseNameWord (rest.drop ws.length) with
      | none => []
      | some w =>
        ws ++ w ++ parseNameReps fuel (rest.drop (ws.length + w.length))

/-- Try one title alternative at the head of `rest`: title, `\s+`, then a
capitalised multi-word sequence.  Returns (consumed length, captured
group-2 text). -/
def tryTitle (t : Str) (rest : Str) : Option (Nat × Str) :=
  if t.isPrefixOf rest then
    let r1 := rest.drop t.length
    let ws := r1.takeWhile charWs
    if ws = [] then none
    else
      match parseNameWord (r1.drop ws.length) with
      | none => none
      | some w1 =>
        let r2 := r1.drop (ws.length + w1.length)
        let reps := parseNameReps r2.length r2
        if reps = [] then none
        else some (t.length + ws.length + w1.length + reps.length, w1 ++ reps)
  else none

/-- Alternation over the title list, in source order. -/
def tryTitles : List Str → Str → Option (Str × Nat × Str)
  | [], _ => none
  | t :: ts, rest =>
    match tryTitle t rest with
    | some (n, g2) => some (t, n, g2)
    | none => tryTitles ts rest

/-- `re.findall` scan: left to right, `\b` before the title, non-overlapping
continuation after each match.  `prevWord` tracks whether the previous
character is a word character (for the `\b`). -/
def fbScan (titles : List Str) : Nat → Str → Bool → List Str
  | 0, _, _ => []
  | _ + 1, [], _ => []
  | fuel + 1, c :: tl, prevWord =>
    if prevWord then fbScan titles fuel tl (wordClassChar c)
    else
      match tryTitles titles (c :: tl) with
      | some (t, n, g2) =>
        (t ++ ' ' :: g2) ::
          fbScan titles fuel ((c :: tl).drop n) (wordClassChar (g2.getLastD ' '))
      | none => fbScan titles fuel tl (wordClassChar c)

/-- people.py `fallback_regex_name_extraction`: the names are
`" ".join((title, capitalised sequence))`, filtered against the
already-known entities. -/
def fallback_regex_name_extraction (text : Str) (known : List Str) : List Str :=
  (fbScan NAME_TITLES (text.length + 1) text false).filter (fun n => !memStr n known)

/-! ### people.py — extract_people_from_chunk -/

/-- Stages 1–5 of the pipeline (single-token filter, keyword trim,
shortest-prefix dedup, whitespace normalisation + dedup, unwanted-word
filter), as sequenced in `extract_people_from_chunk`. -/
def pipelineStages15 (cands : List Str) : List Str :=
  remove_entities_with_unwanted_words
    (normalize_and_deduplicate
      (keep_shortest_entities
        ((remove_single_word_entities cands).map
          (fun p => trim_after_keywords p TRIM_KEYWORDS))))

/-- The full normalisation pipeline of `extract_people_from_chunk` after
the tagger: stages 1–5, the regex fallback when they leave nothing, then
title-stripping. -/
def namePipeline (cands : List Str) (text : Str) : List Str :=
  let c5 := pipelineStages15 cands
  let c6 := if c5 = [] then fallback_regex_name_extraction text [] else c5
  remove_titles_from_entities c6 NAME_TITLES

/-- people.py `extract_people_from_chunk`, with the spaCy tagger abstracted
as a function returning the texts of the `PER` entities of the chunk. -/
def extract_people_from_chunk (tagger : Str → List Str) (text : Str) : List Str :=
  namePipeline ((tagger text).map pyStrip) text

/-! ### JSON_HEADER.py — document model and group_by_despacho_with_metadata

A spaCy `Doc` is modelled as a token list (each token carrying its
trailing whitespace, as in spaCy's `text_with_ws`) together with the
entity spans the rulers produced.  `Span.text` of `doc[start:end]` is the
tokens' texts joined with their whitespace, without the trailing
whitespace of the last token. -/

structure SToken where
  text : Str
  trailing : Str
deriving Repr, DecidableEq

structure SEnt where
  label : String
  text : Str
  start : Nat
  stop : Nat
deriving Repr, DecidableEq

structure SDoc where
  tokens : List SToken
  ents : List SEnt
deriving Repr, DecidableEq

/-- spaCy `Span.text` for a consecutive token run. -/
def sliceText : List SToken → Str
  | [] => []
  | [t] => t.text
  | t :: rest => t.text ++ t.trailing ++ sliceText rest

/-- spaCy `doc[start:stop].text`. -/
def spanText (tokens : List SToken) (start stop : Nat) : Str :=
  sliceText ((tokens.drop start).take (stop - start))

/-- Stable insertion (earlier list elements stay before equal-start later
ones), modelling Python's stable `sorted(..., key=lambda x: x.start)`. -/
def insertByStart (e : SEnt) : List SEnt → List SEnt
  | [] => [e]
  | x :: xs => if e.start < x.start then e :: x :: xs else x :: insertByStart e xs

def sortByStart (l : List SEnt) : List SEnt := l.foldr insertByStart []

/-- JSON_HEADER.py: `des_ents` (label "DES"). -/
def desEnts (doc : SDoc) : List SEnt := doc.ents.filter (fun e => e.label = "DES")

/-- JSON_HEADER.py: `secretaria_ents` (label "SECRETARIA"). -/
def secretariaEnts (doc : SDoc) : List SEnt :=
  doc.ents.filter (fun e => e.label = "SECRETARIA")

/-- JSON_HEADER.py: `all_ents = sorted(secretaria_ents + des_ents, key=start)`. -/
def allEntsSorted (doc : SDoc) : List SEnt :=
  sortByStart (secretariaEnts doc ++ desEnts doc)

/-- The dict key of an entry: `ent.text.replace("\n", "")`. -/
def keyOfEnt (e : SEnt) : Str := pyReplace e.text ['\n'] []

/-- One metadata object of `group_by_despacho_with_metadata`. -/
structure Meta where
  chunk : Str
  data : Str
  autor : List Str
  pessoas : List Str
  serie : Str
  secretaria : Str
  pdf : Str
deriving Repr, DecidableEq

/-- Python `key in result` on the (insertion-ordered) dict. -/
def hasKey (res : List (Str × List Meta)) (k : Str) : Bool :=
  res.any (fun p => p.1 = k)

/-- The metadata built for an emitted "DES" entity (`current_secretaria`
is `sec`, the chunk spans `[e.start, stop)`). -/
def metaFor (tagger : Str → List Str) (tokens : List SToken) (filename : Str)
    (sec : Str) (e : SEnt) (stop : Nat) : Meta :=
  let chunk := pyStrip (pyReplace (spanText tokens e.start stop) sec [])
  { chunk := chunk
    data := []
    autor := extract_people_from_chunk tagger chunk
    pessoas := []
    serie := []
    secretaria := sec
    pdf := filename }

/-- Python truthiness of `current_secretaria` (None or `""` are falsy). -/
def truthy : Option Str → Bool
  | none => false
  | some s => s ≠ []

/-- The chunk-span end for an emitted entity: the next entity's start, or
the document's token length for the last entity
(`all_ents[i + 1].start if i + 1 < len(all_ents) else len(extracted_doc)`). -/
def entStop (docLen : Nat) : List SEnt → Nat
  | [] => docLen
  | f :: _ => f.start

/-- The loop of `group_by_despacho_with_metadata`: walk the sorted entity
list, tracking `current_secretaria`; on a "SECRETARIA" entity update it;
on a "DES" entity with a truthy current secretaria compute the chunk up to
the next entity's start (or the document end) and record the metadata
under the newline-sanitised title — only when the title is not already
present. -/
def groupGo (tagger : Str → List Str) (tokens : List SToken) (docLen : Nat)
    (filename : Str) :
    Option Str → List SEnt → List (Str × List Meta) → List (Str × List Meta)
  | _, [], res => res
  | cur, e :: rest, res =>
    if e.label = "SECRETARIA" then
      groupGo tagger tokens docLen filename (some e.text) rest res
    else if e.label = "DES" && truthy cur then
      groupGo tagger tokens docLen filename cur rest
        (if hasKey res (keyOfEnt e) then res
         else res ++
           [(keyOfEnt e,
             [metaFor tagger tokens filename (cur.getD []) e (entStop docLen rest)])])
    else
      groupGo tagger tokens docLen filename cur rest res

/-- JSON_HEADER.py `group_by_despacho_with_metadata` (the result dict as an
insertion-ordered association list). -/
def group_by_despacho_with_metadata (tagger : Str → List Str) (doc : SDoc)
    (filename : Str) : List (Str × List Meta) :=
  groupGo tagger doc.tokens doc.tokens.length filename none (allEntsSorted doc) []

/-! Ghost instrumentation for the chunk spans: the same walk, recording
each emitted entry's title key, chunk span `[start, stop)` and section
text instead of the built metadata. -/

structure EntrySpan where
  key : Str
  start : Nat
  stop : Nat
  sec : Str
deriving Repr, DecidableEq

def hasKeyS (res : List EntrySpan) (k : Str) : Bool :=
  res.any (fun p => p.key = k)

def groupGoS (docLen : Nat) :
    Option Str → List SEnt → List EntrySpan → List EntrySpan
  | _, [], res => res
  | cur, e :: rest, res =>
    if e.label = "SECRETARIA" then
      groupGoS docLen (some e.text) rest res
    else if e.label = "DES" && truthy cur then
      groupGoS docLen cur rest
        (if hasKeyS res (keyOfEnt e) then res
         else res ++
           [{ key := keyOfEnt e, start := e.start, stop := entStop docLen rest,
              sec := cur.getD [] }])
    else
      groupGoS docLen cur rest res

/-- The chunk spans of the emitted entries, in emission order. -/
def groupSpans (doc : SDoc) : List EntrySpan :=
  groupGoS doc.tokens.length none (allEntsSorted doc) []

/-- Rebuild a metadata entry from its span. -/
def toMetaEntry (tagger : Str → List Str) (tokens : List SToken) (filename : Str)
    (es : EntrySpan) : Str × List Meta :=
  (es.key, [metaFor tagger tokens filename es.sec ⟨"DES", es.key, es.start, es.stop⟩ es.stop])

/-! ### TXT_PROCESSING.py — front-truncation pass and batch -/

/-- The per-file truncation of `process_txt_and_truncate` (steps 3–4):
count the key's occurrences; if at least two, cut the text at the second
(non-overlapping) occurrence. -/
def truncateBeforeSecond (text key : Str) : Str :=
  let count := pyCount text key
  if 2 ≤ count then
    match pyFind text key with
    | none => text
    | some firstPos =>
      match pyFindFrom text key (firstPos + key.length) with
      | none => text
      | some secondPos => text.drop secondPos
  else text

/-- A companion JSON file's content: unparseable, or a mapping given by
its top-level keys (with the per-title metadata elided — only the keys are
read by this pass). -/
inductive JContent where
  | malformed : JContent
  | obj : List Str → JContent
deriving Repr, DecidableEq

/-- Python exceptions that can escape the modelled functions. -/
inductive PyErr where
  | jsonDecodeError : PyErr
  | valueError : PyErr
deriving Repr, DecidableEq

inductive TxtOutcome where
  | skippedNoKey : TxtOutcome
  | wrote : Str → TxtOutcome
deriving Repr, DecidableEq

/-- Directory lookup (a directory is an association list name ↦ content). -/
def dirFind (dir : List (Str × JContent)) (name : Str) : Option JContent :=
  (dir.find? (fun p => p.1 = name)).map (fun p => p.2)

/-- One document of `process_txt_and_truncate`: load the companion JSON's
first key (`FileNotFoundError` and `StopIteration` are caught and lead to
a logged skip; a present-but-unparseable companion raises
`json.JSONDecodeError`, which the `except` clause does not name), then
truncate-and-write. -/
def processOneTxt (jsonDir : List (Str × JContent)) (base : Str) (text : Str) :
    Except PyErr TxtOutcome :=
  match dirFind jsonDir base with
  | none => .ok .skippedNoKey
  | some .malformed => .error .jsonDecodeError
  | some (.obj []) => .ok .skippedNoKey
  | some (.obj (k :: _)) => .ok (.wrote (truncateBeforeSecond text k))

/-- Lexicographic name order used by `sorted(os.listdir(...))`. -/
def insertByName (e : Str × Str) : List (Str × Str) → List (Str × Str)
  | [] => [e]
  | x :: xs => if lexLt e.1 x.1 then e :: x :: xs else x :: insertByName e xs

def sortFilesByName (l : List (Str × Str)) : List (Str × Str) :=
  l.foldr insertByName []

/-- The batch loop of `process_txt_and_truncate`: documents are processed
in order; an uncaught exception aborts the remainder of the batch. -/
def processTxtBatch (jsonDir : List (Str × JContent)) :
    List (Str × Str) → Except PyErr (List TxtOutcome)
  | [] => .ok []
  | (base, text) :: rest =>
    match processOneTxt jsonDir base text with
    | .error e => .error e
    | .ok o =>
      match processTxtBatch jsonDir rest with
      | .error e => .error e
      | .ok os => .ok (o :: os)

/-- `process_txt_and_truncate` over a directory of text files (name-sorted,
as `sorted(os.listdir(input_dir))` does). -/
def process_txt_and_truncate (jsonDir : List (Str × JContent))
    (txtDir : List (Str × Str)) : Except PyErr (List TxtOutcome) :=
  processTxtBatch jsonDir (sortFilesByName txtDir)

/-! ### TXT_PROCESSING.py — HEADER_BLOCK_PATTERN

The verbose multiline regex recognises four masthead shapes followed by a
newline and a `Número <digits>` line.  Within each alternative every
quantified class is disjoint from its successor, so greedy matching is
deterministic; the four alternatives are tried in source order with the
common tail as continuation. -/

/-- `\d+`: consumed length, requiring at least one digit. -/
def pDigits1 (s : Str) : Option Nat :=
  let n := (s.takeWhile Char.isDigit).length
  if n = 0 then none else some n

/-- `\s*`. -/
def pWs0 (s : Str) : Option Nat := some (s.takeWhile charWs).length

/-- `\s+`. -/
def pWs1 (s : Str) : Option Nat :=
  let n := (s.takeWhile charWs).length
  if n = 0 then none else some n

/-- A literal. -/
def pLit (lit : Str) (s : Str) : Option Nat :=
  if lit.isPrefixOf s then some lit.length else none

/-- A single character satisfying `p`. -/
def pCharSat (p : Char → Bool) (s : Str) : Option Nat :=
  match s with
  | [] => none
  | c :: _ => if p c then some 1 else none

/-- Sequencing of parsers. -/
def pSeq (a b : Str → Option Nat) (s : Str) : Option Nat :=
  match a s with
  | none => none
  | some n =>
    match b (s.drop n) with
    | none => none
    | some m => some (n + m)

/-- `\d{4}`: exactly four digits. -/
def pDigits4 (s : Str) : Option Nat :=
  match s with
  | a :: b :: c :: d :: _ =>
    if a.isDigit && b.isDigit && c.isDigit && d.isDigit then some 4 else none
  | _ => none

/-- The month-name alternation, in source order. -/
def pMonth (s : Str) : Option Nat :=
  [toStr "janeiro", toStr "fevereiro", toStr "março", toStr "abril", toStr "maio",
   toStr "junho", toStr "julho", toStr "agosto", toStr "setembro", toStr "outubro",
   toStr "novembro", toStr "dezembro"].foldr
    (fun m acc => match pLit m s with | some n => some n | none => acc) none

/-- `\d+\s+de\s+<month>\s+de\s+\d{4}`: the shared date core. -/
def pDateCore : Str → Option Nat :=
  pSeq pDigits1 (pSeq pWs1 (pSeq (pLit (toStr "de")) (pSeq pWs1 (pSeq pMonth
    (pSeq pWs1 (pSeq (pLit (toStr "de")) (pSeq pWs1 pDigits4)))))))

/-- Alternative 1: `\d+\s*-\s*[A-Za-z]\s+<date core>`. -/
def pAlt1 : Str → Option Nat :=
  pSeq pDigits1 (pSeq pWs0 (pSeq (pLit ['-']) (pSeq pWs0
    (pSeq (pCharSat (fun c => ('A' ≤ c && c ≤ 'Z') || ('a' ≤ c && c ≤ 'z')))
      (pSeq pWs1 pDateCore)))))

/-- Alternative 2: `<date core>\s+[A-Za-z]\s*-\s*\d+`. -/
def pAlt2 : Str → Option Nat :=
  pSeq pDateCore (pSeq pWs1
    (pSeq (pCharSat (fun c => ('A' ≤ c && c ≤ 'Z') || ('a' ≤ c && c ≤ 'z')))
      (pSeq pWs0 (pSeq (pLit ['-']) (pSeq pWs0 pDigits1)))))

/-- Alternative 3: `\d+\s+<date core>`. -/
def pAlt3 : Str → Option Nat := pSeq pDigits1 (pSeq pWs1 pDateCore)

/-- Alternative 4: `<date core>\s+\d+`. -/
def pAlt4 : Str → Option Nat := pSeq pDateCore (pSeq pWs1 pDigits1)

/-- `\r?\nNúmero\s+\d+`: the common tail. -/
def pTail : Str → Option Nat :=
  pSeq (fun s => match pLit ['\r'] s with | some _ => some 1 | none => some 0)
    (pSeq (pLit ['\n']) (pSeq (pLit (toStr "Número")) (pSeq pWs1 pDigits1)))

/-- A full header-block match at the current position: each alternative is
tried in order with the tail as continuation (regex alternation
backtracking). -/
def pHeaderBlock (s : Str) : Option Nat :=
  match pSeq pAlt1 pTail s with
  | some n => some n
  | none =>
    match pSeq pAlt2 pTail s with
    | some n => some n
    | none =>
      match pSeq pAlt3 pTail s with
      | some n => some n
      | none => pSeq pAlt4 pTail s

/-- `re.finditer(HEADER_BLOCK_PATTERN, text)`: scan left to right, record
non-overlapping `(start, stop)` spans, resume after each match. -/
def finditerHB : Nat → Nat → Str → List (Nat × Nat)
  | 0, _, _ => []
  | fuel + 1, pos, s =>
    match s.drop pos with
    | [] => []
    | _ :: _ =>
      match pHeaderBlock (s.drop pos) with
      | some n => (pos, pos + n) :: finditerHB fuel (pos + n) s
      | none => finditerHB fuel (pos + 1) s

def headerBlockMatches (s : Str) : List (Nat × Nat) := finditerHB (s.length + 1) 0 s

/-- TXT_PROCESSING.py `remove_text_after_last_header_block`, on one file's
content: no match leaves the text unchanged, otherwise keep exactly the
prefix up to the end of the last match. -/
def remove_text_after_last_header_block (text : Str) : Str :=
  match (headerBlockMatches text).getLast? with
  | none => text
  | some m => text.take m.2

/-! ### DIVIDE_TXT.py — serie/date derivation and segment splitting -/

/-- Does `re`'s `-(\d{4}-\d{2}-\d{2})` match at the head of `rest`? -/
def dateShapeAt (rest : Str) : Bool :=
  match rest with
  | h :: a :: b :: c :: d :: h2 :: e :: f :: h3 :: g :: i :: _ =>
    h = '-' && a.isDigit && b.isDigit && c.isDigit && d.isDigit &&
      h2 = '-' && e.isDigit && f.isDigit && h3 = '-' && g.isDigit && i.isDigit
  | _ => false

/-- The lazy `^(.*?)` scan of `re.search(r'^(.*?)-(\d{4}-\d{2}-\d{2})', stem)`:
the least cut where the hyphen-date shape matches, with `.` unable to cross
a newline.  The match is not anchored at the end of the stem. -/
def scanDateCut (rest : Str) (k : Nat) : Option Nat :=
  if dateShapeAt rest then some k
  else
    match rest with
    | [] => none
    | c :: tl => if c = '\n' then none else scanDateCut tl (k + 1)

/-- DIVIDE_TXT.py lines 62–70: derive `(serie, date)` from the filename
stem. -/
def deriveSerieDate (stem : Str) : Str × Str :=
  match scanDateCut stem 0 with
  | none => (stem, [])
  | some k => (stem.take k, (stem.drop (k + 1)).take 10)

/-- Is position `p` at a line start (`(?m)^`)? -/
def atLineStart (content : Str) (p : Nat) : Bool :=
  p = 0 || (content.take p).getLast? = some '\n'

/-- First alternative of `^(k1|k2|...)` matching at this position (the keys
in their JSON order, as `'|'.join(escaped)` tries them). -/
def firstKeyAt (keys : List Str) (rest : Str) : Option Str :=
  keys.find? (fun k => k.isPrefixOf rest)

/-- `re.finditer` for the header-key pattern: line-start positions only,
non-overlapping, resuming after each match (advancing one position on a
zero-width match, as the `re` scanner does). -/
def finditerKeys (keys : List Str) (content : Str) : Nat → Nat → List (Nat × Str)
  | 0, _ => []
  | fuel + 1, pos =>
    if pos > content.length then []
    else
      if atLineStart content pos then
        match firstKeyAt keys (content.drop pos) with
        | some k =>
          (pos, k) :: finditerKeys keys content fuel (pos + max k.length 1)
        | none =>
          if pos = content.length then []
          else finditerKeys keys content fuel (pos + 1)
      else
        if pos = content.length then []
        else finditerKeys keys content fuel (pos + 1)

def headerKeyMatches (keys : List Str) (content : Str) : List (Nat × Str) :=
  finditerKeys keys content (content.length + 2) 0

/-- Python slice `content[start:end]`. -/
def pySlice (content : Str) (start stop : Nat) : Str :=
  (content.drop start).take (stop - start)

/-- `re.sub(r'[\\/:*?"<>| ]', '_', header)`: filename sanitisation. -/
def sanitizeHeader (header : Str) : Str :=
  header.map (fun c =>
    if c = '\\' || c = '/' || c = ':' || c = '*' || c = '?' || c = '"' ||
        c = '<' || c = '>' || c = '|' || c = ' ' then '_' else c)

/-- The segment loop of `divide_txt_and_update_json` (lines 99–118): for
each match, the segment runs to the next match's start (or the end of the
content) and is stripped; empty segments are skipped silently — no file is
written and no JSON entry is updated for them.  Returns the written
`(sanitised filename, segment text)` pairs in order. -/
def segFilesGo (content : Str) : List (Nat × Str) → List (Str × Str)
  | [] => []
  | (start, k) :: rest =>
    let stop := match rest with
      | [] => content.length
      | (s2, _) :: _ => s2
    let segmentText := pyStrip (pySlice content start stop)
    if segmentText = [] then segFilesGo content rest
    else (sanitizeHeader k, segmentText) :: segFilesGo content rest

def segFiles (keys : List Str) (content : Str) : List (Str × Str) :=
  segFilesGo content (headerKeyMatches keys content)

inductive DivOutcome where
  | skippedBadJson : DivOutcome
  | skippedNoKeys : DivOutcome
  | skippedNoHeaders : DivOutcome
  | processed : List (Str × Str) → DivOutcome
deriving Repr, DecidableEq

/-- `divide_txt_and_update_json`: a missing JSON or TXT file raises
`ValueError` (lines 55–60, uncaught by the caller's loop); an unreadable
JSON is caught and the document is skipped; empty key sets and match-less
contents are logged skips. -/
def divide_txt_and_update_json (jsonFile : Option JContent) (txtFile : Option Str) :
    Except PyErr DivOutcome :=
  match jsonFile with
  | none => .error .valueError
  | some j =>
    match txtFile with
    | none => .error .valueError
    | some content =>
      match j with
      | .malformed => .ok .skippedBadJson
      | .obj [] => .ok .skippedNoKeys
      | .obj keys =>
        if headerKeyMatches keys content = [] then .ok .skippedNoHeaders
        else .ok (.processed (segFiles keys content))

/-! ### Claim C4 — headers before the first section banner are dropped -/

/-- C4: For every document, an ACT_HEADER ("DES") match occurring before
the first SECTION_BANNER ("SECRETARIA") match produces no Entry: while
`current_secretaria` is undefined, every leading non-banner entity is
consumed without changing the result, so segmentation drops every header
seen while no current section is defined. -/
theorem preBanner_headers_dropped (tagger : Str → List Str)
    (tokens : List SToken) (docLen : Nat) (filename : Str)
    (ds rest : List SEnt) (res : List (Str × List Meta))
    (h : ∀ e ∈ ds, e.label ≠ "SECRETARIA") :
    groupGo tagger tokens docLen filename none (ds ++ rest) res =
      groupGo tagger tokens docLen filename none rest res := by
  induction ds with
  | nil => rfl
  | cons e ds ih =>
    have hne : ¬ (e.label = "SECRETARIA") := h e (List.mem_cons_self e ds)
    have : ∀ e' ∈ ds, e'.label ≠ "SECRETARIA" := fun e' he' => h e' (List.mem_cons_of_mem e he')
    simp only [List.cons_append, groupGo, if_neg hne, truthy, Bool.and_false,
      Bool.false_eq_true, if_neg (Bool.false_ne_true)]
    exact ih this

/-- Witness for C4 at a concrete document: one pre-banner header entity is
dropped outright. -/
theorem preBanner_headers_dropped_witness :
    (∀ e ∈ [(⟨"DES", toStr "Despacho n.º 1", 0, 4⟩ : SEnt)], e.label ≠ "SECRETARIA") ∧
      groupGo (fun _ => []) [] 0 [] none ([⟨"DES", toStr "Despacho n.º 1", 0, 4⟩] ++ []) [] =
        groupGo (fun _ => []) [] 0 [] none [] [] :=
  ⟨by decide, preBanner_headers_dropped (fun _ => []) [] 0 [] _ [] [] (by decide)⟩

/-! ### Claim C1 — entry titles are unique; the first occurrence wins -/

theorem nodup_append_single {α : Type} {l : List α} {a : α}
    (h : l.Nodup) (ha : a ∉ l) : (l ++ [a]).Nodup := by
  refine List.nodup_append.mpr ⟨h, List.nodup_singleton a, ?_⟩
  intro x hx hy
  simp only [List.mem_singleton] at hy
  subst hy
  exact ha hx

theorem hasKey_true_iff (res : List (Str × List Meta)) (k : Str) :
    hasKey res k = true ↔ k ∈ res.map Prod.fst := by
  induction res with
  | nil => simp [hasKey]
  | cons p ps ih =>
    unfold hasKey at ih ⊢
    simp only [List.any_cons, Bool.or_eq_true, decide_eq_true_eq, List.map_cons,
      List.mem_cons, ih]
    constructor
    · rintro (h | h)
      · exact Or.inl h.symm
      · exact Or.inr h
    · rintro (h | h)
      · exact Or.inl h.symm
      · exact Or.inr h

theorem not_hasKey_iff (res : List (Str × List Meta)) (k : Str) :
    hasKey res k = false ↔ k ∉ res.map Prod.fst := by
  rw [← Bool.not_eq_true, not_iff_not]
  exact hasKey_true_iff res k

theorem groupGo_keys_nodup (tagger : Str → List Str) (tokens : List SToken)
    (docLen : Nat) (filename : Str) :
    ∀ (ents : List SEnt) (cur : Option Str) (res : List (Str × List Meta)),
      (res.map Prod.fst).Nodup →
      ((groupGo tagger tokens docLen filename cur ents res).map Prod.fst).Nodup := by
  intro ents
  induction ents with
  | nil =>
    intro cur res h
    simpa [groupGo] using h
  | cons e rest ih =>
    intro cur res h
    rw [groupGo]
    split
    · exact ih _ _ h
    · split
      · apply ih
        split
        · exact h
        · rename_i hnk
          rw [List.map_append]
          exact nodup_append_single h
            ((not_hasKey_iff res (keyOfEnt e)).mp (Bool.not_eq_true _ ▸ hnk))
      · exact ih _ _ h

theorem groupGo_found_stable (tagger : Str → List Str) (tokens : List SToken)
    (docLen : Nat) (filename : Str) :
    ∀ (ents : List SEnt) (cur : Option Str) (res : List (Str × List Meta)) (k : Str),
      hasKey res k = true →
      (groupGo tagger tokens docLen filename cur ents res).find? (fun p => p.1 = k) =
        res.find? (fun p => p.1 = k) := by
  intro ents
  induction ents with
  | nil =>
    intro cur res k _
    rw [groupGo]
  | cons e rest ih =>
    intro cur res k hk
    rw [groupGo]
    split
    · exact ih _ _ _ hk
    · split
      · split
        · exact ih _ _ _ hk
        · rename_i hnk
          rw [ih _ _ k (by simp [hasKey, List.any_append]; left; simpa [hasKey] using hk)]
          rw [List.find?_append]
          have : res.find? (fun p => p.1 = k) ≠ none := by
            simp only [ne_eq, List.find?_eq_none]
            intro hall
            simp only [hasKey, List.any_eq_true] at hk
            obtain ⟨p, hp, hpe⟩ := hk
            exact absurd hpe (by simpa using hall p hp)
          cases hres : res.find? (fun p => p.1 = k) with
          | none => exact absurd hres this
          | some v => rfl
      · exact ih _ _ _ hk

/-- C1: For every document, the record set maps each act-header title to at
most one Entry: the emitted keys are pairwise distinct, and once a title is
present in the result dict, processing any further entities never changes
the metadata stored under that title (later occurrences of the same title
are ignored, so only the first eligible occurrence in start-offset order
produces the Entry). -/
theorem entry_titles_unique (tagger : Str → List Str) (doc : SDoc) (filename : Str) :
    ((group_by_despacho_with_metadata tagger doc filename).map Prod.fst).Nodup ∧
    (∀ (cur : Option Str) (ents : List SEnt) (res : List (Str × List Meta)) (k : Str),
      hasKey res k = true →
      (groupGo tagger doc.tokens doc.tokens.length filename cur ents res).find?
          (fun p => p.1 = k) =
        res.find? (fun p => p.1 = k)) :=
  ⟨groupGo_keys_nodup tagger doc.tokens doc.tokens.length filename
      (allEntsSorted doc) none [] (by simp),
   fun cur ents res k hk =>
     groupGo_found_stable tagger doc.tokens doc.tokens.length filename ents cur res k hk⟩

/-- Witness for C1: a concrete document whose single "DES" entity carries a
title that is already recorded; its stored metadata is untouched. -/
theorem entry_titles_unique_witness :
    hasKey [(toStr "K", ([] : List Meta))] (toStr "K") = true ∧
      (groupGo (fun _ => []) [] 0 [] (some (toStr "S"))
          [⟨"DES", toStr "K", 0, 1⟩] [(toStr "K", [])]).find?
          (fun p => p.1 = toStr "K") =
        [(toStr "K", ([] : List Meta))].find? (fun p => p.1 = toStr "K") :=
  ⟨by decide,
   (entry_titles_unique (fun _ => []) ⟨[], []⟩ []).2 (some (toStr "S"))
     [⟨"DES", toStr "K", 0, 1⟩] [(toStr "K", [])] (toStr "K") (by decide)⟩

/-! ### Claim C3 — empty chunks: segment files versus Entry records -/

/-- A document whose single act-header chunk is exactly the current
section banner's text, so that `chunk.replace(current_secretaria, "").strip()`
is empty: tokens "A B A B", a "SECRETARIA" entity "A B" over tokens 0–2 and
a "DES" entity "A B" over tokens 2–4. -/
def ceDocEmptyChunk : SDoc :=
  ⟨[⟨toStr "A", toStr " "⟩, ⟨toStr "B", toStr " "⟩, ⟨toStr "A", toStr " "⟩,
    ⟨toStr "B", []⟩],
   [⟨"SECRETARIA", toStr "A B", 0, 2⟩, ⟨"DES", toStr "A B", 2, 4⟩]⟩

/-- Counterexample to C3 as stated: `group_by_despacho_with_metadata` has
no emptiness guard, so a chunk that is empty after stripping still
produces an Entry (here under title "A B" with `chunk = ""`); the claim
says such a chunk produces no Entry. -/
theorem emptyChunk_still_produces_entry :
    (group_by_despacho_with_metadata (fun _ => []) ceDocEmptyChunk (toStr "f.txt")).map
        (fun p => (p.1, p.2.map (fun m => m.chunk))) = [(toStr "A B", [[]])] := by
  decide

/-- C3 (amended): in `divide_txt_and_update_json`'s segment loop a segment
that is empty after stripping is silently skipped — every written segment
file has non-empty text (and, since the JSON update sits in the same
guarded branch, no entry is updated for a skipped segment); the segmenter
itself (`group_by_despacho_with_metadata`) does not skip empty chunks. -/
theorem empty_segments_skipped (keys : List Str) (content : Str) :
    ∀ p ∈ segFiles keys content, p.2 ≠ [] := by
  unfold segFiles
  generalize headerKeyMatches keys content = ms
  induction ms with
  | nil =>
    intro p hp
    simp [segFilesGo] at hp
  | cons m rest ih =>
    intro p hp
    obtain ⟨start, k⟩ := m
    rw [segFilesGo.eq_def] at hp
    simp only [] at hp
    split at hp
    · exact ih p hp
    · rename_i hne
      rcases List.mem_cons.mp hp with h | h
      · subst h
        exact hne
      · exact ih p h

/-- Witness for C3's amended theorem at a concrete input: the single
written segment of content "K x" under key "K" is non-empty. -/
theorem empty_segments_skipped_witness :
    (toStr "K", toStr "K x") ∈ segFiles [toStr "K"] (toStr "K x") ∧
      (toStr "K", toStr "K x").2 ≠ [] :=
  ⟨by decide, empty_segments_skipped [toStr "K"] (toStr "K x") _ (by decide)⟩

/-! ### Claim C5 — front-truncation at the second title occurrence -/

/-- All positions at which `k` occurs in `s` (occurrences in the plain
mathematical sense, overlapping ones included). -/
def occPositions (s k : Str) : List Nat :=
  (List.range (s.length + 1)).filter (fun i => k.isPrefixOf (s.drop i))

/-- Counterexample to C5 as stated: in text "aaa" the non-empty title "aa"
occurs twice (at positions 0 and 1), yet `process_txt_and_truncate`'s
truncation returns the text unchanged instead of the suffix "aa" starting
at the second occurrence — `str.count`/`str.find` see only non-overlapping
occurrences. -/
theorem front_truncation_overlap_ce :
    occPositions (toStr "aaa") (toStr "aa") = [0, 1] ∧
      truncateBeforeSecond (toStr "aaa") (toStr "aa") = toStr "aaa" ∧
      toStr "aaa" ≠ (toStr "aaa").drop 1 := by
  decide

theorem pyCountAux_find (s k : Str) (fuel from_ : Nat)
    (h : 1 ≤ pyCountAux s k fuel from_) :
    ∃ i, pyFindFrom s k from_ = some i := by
  cases fuel with
  | zero => simp [pyCountAux] at h
  | succ n =>
    rw [pyCountAux] at h
    revert h
    cases hf : pyFindFrom s k from_ with
    | none => intro h; simp at h
    | some i => intro _; exact ⟨i, rfl⟩

/-- C5 (amended): with occurrences counted the way the source counts them
(non-overlapping, left to right, as Python's `str.count`/`str.find`),
front-truncation returns the text unchanged when the title so occurs fewer
than two times, and otherwise returns the suffix starting at (and
including) the second such occurrence; in particular
"HEADER junk HEADER real content" with title "HEADER" yields
"HEADER real content". -/
theorem front_truncation_second_occurrence :
    (∀ (text key : Str), key ≠ [] →
      (pyCount text key < 2 → truncateBeforeSecond text key = text) ∧
      (2 ≤ pyCount text key →
        ∃ p1 p2, pyFind text key = some p1 ∧
          pyFindFrom text key (p1 + key.length) = some p2 ∧
          truncateBeforeSecond text key = text.drop p2)) ∧
    truncateBeforeSecond (toStr "HEADER junk HEADER real content") (toStr "HEADER") =
      toStr "HEADER real content" := by
  constructor
  · intro text key hk
    constructor
    · intro hlt
      unfold truncateBeforeSecond
      rw [if_neg (by omega)]
    · intro hge
      have hge' := hge
      unfold pyCount at hge'
      rw [if_neg hk] at hge'
      obtain ⟨p1, hp1⟩ := pyCountAux_find text key (text.length + 1) 0 (by omega)
      have hstep : pyCountAux text key (text.length + 1) 0 =
          1 + pyCountAux text key text.length (p1 + key.length) := by
        rw [pyCountAux, hp1]
      rw [hstep] at hge'
      obtain ⟨p2, hp2⟩ :=
        pyCountAux_find text key text.length (p1 + key.length) (by omega)
      refine ⟨p1, p2, hp1, hp2, ?_⟩
      unfold truncateBeforeSecond
      rw [if_pos hge]
      have hp1' : pyFind text key = some p1 := hp1
      rw [hp1']
      show (match pyFindFrom text key (p1 + key.length) with
            | none => text
            | some secondPos => text.drop secondPos) = text.drop p2
      rw [hp2]
  · decide

/-- Witness for C5's amended theorem: both branches exercised at concrete
inputs ("once" leaves the text unchanged; the spec's HEADER example
truncates at the second occurrence). -/
theorem front_truncation_second_occurrence_witness :
    (toStr "ab" ≠ [] ∧ pyCount (toStr "xaby") (toStr "ab") < 2 ∧
      truncateBeforeSecond (toStr "xaby") (toStr "ab") = toStr "xaby") ∧
    (2 ≤ pyCount (toStr "abab") (toStr "ab") ∧
      ∃ p1 p2, pyFind (toStr "abab") (toStr "ab") = some p1 ∧
        pyFindFrom (toStr "abab") (toStr "ab") (p1 + (toStr "ab").length) = some p2 ∧
        truncateBeforeSecond (toStr "abab") (toStr "ab") = (toStr "abab").drop p2) :=
  ⟨⟨by decide, by decide,
     (front_truncation_second_occurrence.1 (toStr "xaby") (toStr "ab") (by decide)).1
       (by decide)⟩,
   ⟨by decide,
     (front_truncation_second_occurrence.1 (toStr "abab") (toStr "ab") (by decide)).2
       (by decide)⟩⟩

/-! ### Claim C6 — masthead back-truncation -/

/-- C6: For every text, masthead back-truncation returns the text unchanged
when no masthead block matches, and otherwise returns the prefix of the
text ending exactly at the end of the last masthead match, discarding all
trailing material; in particular a text ending in a masthead block
followed by scanner noise is cut exactly at the end of the
"Número 97" token. -/
theorem masthead_back_truncation :
    (∀ text : Str,
      (headerBlockMatches text = [] → remove_text_after_last_header_block text = text) ∧
      (∀ m, (headerBlockMatches text).getLast? = some m →
        remove_text_after_last_header_block text = text.take m.2)) ∧
    remove_text_after_last_header_block
        (toStr "4 - S 30 de maio de 2025\nNúmero 97\nLIXO noise") =
      toStr "4 - S 30 de maio de 2025\nNúmero 97" := by
  constructor
  · intro text
    constructor
    · intro h
      unfold remove_text_after_last_header_block
      rw [h]
      rfl
    · intro m hm
      unfold remove_text_after_last_header_block
      rw [hm]
  · decide

/-- Witness for C6: both branches at concrete inputs — a match-free text is
unchanged, and the example text is cut at the end of its only masthead
match (characters 0–34). -/
theorem masthead_back_truncation_witness :
    (headerBlockMatches (toStr "sem cabeçalho") = [] ∧
      remove_text_after_last_header_block (toStr "sem cabeçalho") = toStr "sem cabeçalho") ∧
    ((headerBlockMatches
        (toStr "4 - S 30 de maio de 2025\nNúmero 97\nLIXO noise")).getLast? =
          some (0, 34) ∧
      remove_text_after_last_header_block
          (toStr "4 - S 30 de maio de 2025\nNúmero 97\nLIXO noise") =
        (toStr "4 - S 30 de maio de 2025\nNúmero 97\nLIXO noise").take 34) :=
  ⟨⟨by decide, ((masthead_back_truncation.1 (toStr "sem cabeçalho")).1 (by decide))⟩,
   ⟨by decide,
    ((masthead_back_truncation.1
        (toStr "4 - S 30 de maio de 2025\nNúmero 97\nLIXO noise")).2 (0, 34)
      (by decide))⟩⟩

/-! ### Claim C7 — serie/date derivation from the filename stem -/

/-- Modelled from the spec's words for comparison (refinement check): split
the stem on a TRAILING ISO-date suffix `<series>-<YYYY-MM-DD>`; when the
stem does not end in such a suffix, series is the whole stem and date is
empty. -/
def specSerieDate (stem : Str) : Str × Str :=
  if 11 ≤ stem.length ∧ dateShapeAt (stem.drop (stem.length - 11)) = true then
    (stem.take (stem.length - 11), stem.drop (stem.length - 10))
  else
    (stem, [])

/-- Counterexample to C7 as stated: the source regex
`^(.*?)-(\d{4}-\d{2}-\d{2})` is not anchored at the end of the stem and is
lazy, so it splits at the EARLIEST hyphen-date occurrence: on stem
"A-2025-05-30-B", which does not end in a date suffix, the claim
prescribes series = "A-2025-05-30-B" and date = "", but the code derives
series = "A" and date = "2025-05-30". -/
theorem serie_date_not_trailing_ce :
    deriveSerieDate (toStr "A-2025-05-30-B") = (toStr "A", toStr "2025-05-30") ∧
      specSerieDate (toStr "A-2025-05-30-B") = (toStr "A-2025-05-30-B", []) ∧
      deriveSerieDate (toStr "A-2025-05-30-B") ≠ specSerieDate (toStr "A-2025-05-30-B") := by
  refine ⟨by decide, ?_, ?_⟩ <;>
    · rw [specSerieDate]
      decide

theorem scanDateCut_down (stem : Str) (k : Nat)
    (hk : dateShapeAt (stem.drop k) = true)
    (hbelow : ∀ j, j < k → dateShapeAt (stem.drop j) = false)
    (hnl : ∀ j, j < k → (stem.drop j).head? ≠ some '\n') :
    ∀ (d i : Nat), i ≤ k → k - i = d → scanDateCut (stem.drop i) i = some k := by
  have hklen : k < stem.length := by
    by_contra h
    rw [List.drop_eq_nil_of_le (Nat.le_of_not_lt h)] at hk
    simp [dateShapeAt] at hk
  intro d
  induction d with
  | zero =>
    intro i hik hd
    have : i = k := by omega
    subst this
    rw [scanDateCut.eq_def, if_pos hk]
  | succ n ih =>
    intro i hik hd
    have hix : i < k := by omega
    have hilen : i < stem.length := by omega
    rw [scanDateCut.eq_def, if_neg (by simp [hbelow i hix])]
    rw [List.drop_eq_getElem_cons hilen]
    have hhd : ¬ stem[i] = '\n' := by
      have := hnl i hix
      rw [List.drop_eq_getElem_cons hilen] at this
      simp only [List.head?_cons, ne_eq, Option.some.injEq] at this
      exact this
    show (if stem[i] = '\n' then none else scanDateCut (stem.drop (i + 1)) (i + 1)) =
      some k
    rw [if_neg hhd]
    exact ih (i + 1) (by omega) (by omega)

/-- C7 (amended): derivation never errors, and the split happens at the
EARLIEST position where `-(\d{4}-\d{2}-\d{2})` matches without the lazy
prefix crossing a newline (the match need not be a trailing suffix):
series is the part before that hyphen and date the ten characters after
it; when no such position exists the whole stem is the series and the
date is empty.  The spec's own examples hold: "SERIE-1-2025-05-30" splits
into ("SERIE-1", "2025-05-30") and "randomname" yields ("randomname", ""). -/
theorem serie_date_earliest_occurrence :
    (∀ (stem : Str) (k : Nat),
      dateShapeAt (stem.drop k) = true →
      (∀ j, j < k → dateShapeAt (stem.drop j) = false) →
      (∀ j, j < k → (stem.drop j).head? ≠ some '\n') →
      deriveSerieDate stem = (stem.take k, (stem.drop (k + 1)).take 10)) ∧
    (∀ stem : Str, scanDateCut stem 0 = none → deriveSerieDate stem = (stem, [])) ∧
    deriveSerieDate (toStr "SERIE-1-2025-05-30") = (toStr "SERIE-1", toStr "2025-05-30") ∧
    deriveSerieDate (toStr "randomname") = (toStr "randomname", []) := by
  refine ⟨?_, ?_, by decide, by decide⟩
  · intro stem k hk hbelow hnl
    unfold deriveSerieDate
    have h0 : scanDateCut (stem.drop 0) 0 = some k :=
      scanDateCut_down stem k hk hbelow hnl k 0 (Nat.zero_le k) rfl
    rw [List.drop_zero] at h0
    rw [h0]
  · intro stem h
    unfold deriveSerieDate
    rw [h]

/-- Witness for C7's amended theorem: applied at the spec's own example
stem "SERIE-1-2025-05-30" (earliest match at position 7) and at the
match-free stem "randomname". -/
theorem serie_date_earliest_occurrence_witness :
    (dateShapeAt ((toStr "SERIE-1-2025-05-30").drop 7) = true ∧
      deriveSerieDate (toStr "SERIE-1-2025-05-30") =
        ((toStr "SERIE-1-2025-05-30").take 7,
          ((toStr "SERIE-1-2025-05-30").drop 8).take 10)) ∧
    (scanDateCut (toStr "randomname") 0 = none ∧
      deriveSerieDate (toStr "randomname") = (toStr "randomname", [])) :=
  ⟨⟨by decide,
    serie_date_earliest_occurrence.1 (toStr "SERIE-1-2025-05-30") 7 (by decide)
      (by decide) (by decide)⟩,
   ⟨by decide, serie_date_earliest_occurrence.2.1 (toStr "randomname") (by decide)⟩⟩

/-! ### Claim C9 — per-document recovery in the batch -/

/-- Counterexample to C9 as stated: a companion record file that exists
but cannot be parsed ("unreadable") raises `json.JSONDecodeError` out of
`process_txt_and_truncate` — its `except` clause names only
`FileNotFoundError` and `StopIteration` — so the batch aborts and the
remaining document "b" is never processed. -/
theorem malformed_companion_aborts_batch :
    processTxtBatch [(toStr "a", JContent.malformed)]
        [(toStr "a", toStr "texto"), (toStr "b", toStr "texto")] =
      Except.error PyErr.jsonDecodeError := rfl

/-- C9 (amended): an ABSENT companion record file (or one with an empty
mapping) is recovered by skipping that document and continuing: when no
companion is present-but-malformed, the batch completes with one outcome
per document and every absent-companion document is skipped.  A malformed
companion, by contrast, aborts `process_txt_and_truncate`'s batch (see the
counterexample), while `divide_txt_and_update_json` recovers malformed
JSON but raises `ValueError` on a missing file. -/
theorem missing_companion_skipped :
    (∀ (jsonDir : List (Str × JContent)) (files : List (Str × Str)),
      (∀ p ∈ files, dirFind jsonDir p.1 ≠ some JContent.malformed) →
      ∃ os, processTxtBatch jsonDir files = .ok os ∧
        os.length = files.length ∧
        ∀ (i : Nat) (hi : i < files.length),
          dirFind jsonDir (files.get ⟨i, hi⟩).1 = none →
          os.get? i = some TxtOutcome.skippedNoKey) ∧
    divide_txt_and_update_json none (some (toStr "t")) = .error .valueError ∧
    divide_txt_and_update_json (some JContent.malformed) (some (toStr "t")) =
      .ok .skippedBadJson := by
  refine ⟨?_, rfl, rfl⟩
  intro jsonDir files
  induction files with
  | nil =>
    intro _
    exact ⟨[], rfl, rfl, fun i hi => absurd hi (by simp)⟩
  | cons p rest ih =>
    intro h
    obtain ⟨b, t⟩ := p
    obtain ⟨os, hos, hlen, hskip⟩ := ih (fun q hq => h q (List.mem_cons_of_mem _ hq))
    have hhd := h (b, t) (List.mem_cons_self _ _)
    have hone : ∃ o, processOneTxt jsonDir b t = .ok o ∧
        (dirFind jsonDir b = none → o = TxtOutcome.skippedNoKey) := by
      unfold processOneTxt
      cases hf : dirFind jsonDir b with
      | none => exact ⟨.skippedNoKey, rfl, fun _ => rfl⟩
      | some j =>
        cases j with
        | malformed => exact absurd hf hhd
        | obj keys =>
          cases keys with
          | nil => exact ⟨.skippedNoKey, rfl, by simp⟩
          | cons k ks => exact ⟨.wrote (truncateBeforeSecond t k), rfl, by simp⟩
    obtain ⟨o, ho, hoskip⟩ := hone
    refine ⟨o :: os, ?_, by simp [hlen], ?_⟩
    · simp only [processTxtBatch, ho, hos]
    · intro i hi hnone
      cases i with
      | zero =>
        simp only [List.get] at hnone
        simp [hoskip hnone]
      | succ n =>
        simp only [List.get] at hnone
        simpa using hskip n (by simpa using hi) hnone

/-- Witness for C9's amended theorem: a two-document batch where the first
document's companion is absent — it is skipped and the second document is
still processed. -/
theorem missing_companion_skipped_witness :
    (∀ p ∈ [(toStr "a", toStr "ka ka"), (toStr "b", toStr "t")],
      dirFind [(toStr "b", JContent.obj [toStr "K"])] p.1 ≠ some JContent.malformed) ∧
    ∃ os, processTxtBatch [(toStr "b", JContent.obj [toStr "K"])]
        [(toStr "a", toStr "ka ka"), (toStr "b", toStr "t")] = .ok os ∧
      os.length = 2 ∧
      ∀ (i : Nat) (hi : i < ([(toStr "a", toStr "ka ka"), (toStr "b", toStr "t")] :
          List (Str × Str)).length),
        dirFind [(toStr "b", JContent.obj [toStr "K"])]
            (([(toStr "a", toStr "ka ka"), (toStr "b", toStr "t")] :
              List (Str × Str)).get ⟨i, hi⟩).1 = none →
        os.get? i = some TxtOutcome.skippedNoKey :=
  ⟨by decide,
   missing_companion_skipped.1 [(toStr "b", JContent.obj [toStr "K"])]
     [(toStr "a", toStr "ka ka"), (toStr "b", toStr "t")] (by decide)⟩

/-! ### Word-splitting lemmas (shared by the NameNormalizer claims) -/

/-- A word as produced by `str.split()`: non-empty with no whitespace. -/
def GoodWord (w : Str) : Prop := w ≠ [] ∧ ∀ c ∈ w, charWs c = false

theorem wordsOf_cons_ws {c : Char} {rest : Str} (h : charWs c = true) :
    wordsOf (c :: rest) = wordsOf rest := by
  rw [wordsOf.eq_def]
  dsimp only
  rw [if_pos h]

theorem wordsOf_singleton {c : Char} (h : charWs c = false) :
    wordsOf [c] = [[c]] := by
  rw [wordsOf.eq_def]
  dsimp only
  rw [if_neg (by simp [h])]

theorem wordsOf_cons_cons_ws {c d : Char} {rest : Str}
    (hc : charWs c = false) (hd : charWs d = true) :
    wordsOf (c :: d :: rest) = [c] :: wordsOf (d :: rest) := by
  rw [wordsOf.eq_def]
  dsimp only
  rw [if_neg (by simp [hc])]
  show (if charWs d = true then [c] :: wordsOf (d :: rest)
        else match wordsOf (d :: rest) with
             | [] => [[c]]
             | w :: tl => (c :: w) :: tl) = [c] :: wordsOf (d :: rest)
  rw [if_pos hd]

theorem wordsOf_cons_cons {c d : Char} {rest : Str} {w : Str} {tl : List Str}
    (hc : charWs c = false) (hd : charWs d = false)
    (hw : wordsOf (d :: rest) = w :: tl) :
    wordsOf (c :: d :: rest) = (c :: w) :: tl := by
  rw [wordsOf.eq_def]
  dsimp only
  rw [if_neg (by simp [hc])]
  show (if charWs d = true then [c] :: wordsOf (d :: rest)
        else match wordsOf (d :: rest) with
             | [] => [[c]]
             | w :: tl => (c :: w) :: tl) = (c :: w) :: tl
  rw [if_neg (by simp [hd]), hw]

theorem wordsOf_ne_nil {d : Char} {rest : Str} (hd : charWs d = false) :
    wordsOf (d :: rest) ≠ [] := by
  cases rest with
  | nil => rw [wordsOf_singleton hd]; simp
  | cons e tl =>
    cases he : charWs e with
    | true => rw [wordsOf_cons_cons_ws hd he]; simp
    | false =>
      cases hw : wordsOf (e :: tl) with
      | nil => exact absurd hw (wordsOf_ne_nil he)
      | cons w ws => rw [wordsOf_cons_cons hd he hw]; simp

theorem wordsOf_good : ∀ (s : Str), ∀ w ∈ wordsOf s, GoodWord w := by
  intro s
  induction s with
  | nil => intro w hw; simp [wordsOf] at hw
  | cons c rest ih =>
    intro w hw
    cases hc : charWs c with
    | true =>
      rw [wordsOf_cons_ws hc] at hw
      exact ih w hw
    | false =>
      cases rest with
      | nil =>
        rw [wordsOf_singleton hc] at hw
        simp at hw
        subst hw
        exact ⟨by simp, by simpa using hc⟩
      | cons d tl =>
        cases hd : charWs d with
        | true =>
          rw [wordsOf_cons_cons_ws hc hd] at hw
          rcases List.mem_cons.mp hw with h | h
          · subst h
            exact ⟨by simp, by simpa using hc⟩
          · exact ih w h
        | false =>
          cases hws : wordsOf (d :: tl) with
          | nil => exact absurd hws (wordsOf_ne_nil hd)
          | cons w0 tl0 =>
            rw [wordsOf_cons_cons hc hd hws] at hw
            rcases List.mem_cons.mp hw with h | h
            · subst h
              have h0 : GoodWord w0 := ih w0 (by rw [hws]; exact List.mem_cons_self _ _)
              refine ⟨by simp, ?_⟩
              intro x hx
              rcases List.mem_cons.mp hx with h | h
              · subst h; exact hc
              · exact h0.2 x h
            · exact ih w (by rw [hws]; exact List.mem_cons_of_mem _ h)

theorem wordsOf_goodWord : ∀ (w : Str), GoodWord w → wordsOf w = [w] := by
  intro w
  induction w with
  | nil => intro h; exact absurd rfl h.1
  | cons c rest ih =>
    intro h
    have hc : charWs c = false := h.2 c (List.mem_cons_self _ _)
    cases rest with
    | nil => exact wordsOf_singleton hc
    | cons d tl =>
      have hd : charWs d = false := h.2 d (by simp)
      have hrest : GoodWord (d :: tl) :=
        ⟨by simp, fun x hx => h.2 x (List.mem_cons_of_mem _ hx)⟩
      exact wordsOf_cons_cons hc hd (ih hrest)

theorem wordsOf_word_append : ∀ (w rest : Str), GoodWord w →
    wordsOf (w ++ ' ' :: rest) = w :: wordsOf rest := by
  intro w
  induction w with
  | nil => intro rest h; exact absurd rfl h.1
  | cons c w' ih =>
    intro rest h
    have hc : charWs c = false := h.2 c (List.mem_cons_self _ _)
    cases w' with
    | nil =>
      show wordsOf (c :: ' ' :: rest) = [c] :: wordsOf rest
      rw [wordsOf_cons_cons_ws hc (by decide), wordsOf_cons_ws (by decide)]
    | cons d w'' =>
      have hd : charWs d = false := h.2 d (by simp)
      have hw' : GoodWord (d :: w'') :=
        ⟨by simp, fun x hx => h.2 x (List.mem_cons_of_mem _ hx)⟩
      show wordsOf (c :: ((d :: w'') ++ ' ' :: rest)) = (c :: d :: w'') :: wordsOf rest
      exact wordsOf_cons_cons hc hd (ih rest hw')

theorem wordsOf_joinWords : ∀ (ws : List Str), (∀ w ∈ ws, GoodWord w) →
    wordsOf (joinWords ws) = ws := by
  intro ws
  induction ws with
  | nil => intro _; rfl
  | cons w rest ih =>
    intro h
    cases rest with
    | nil =>
      show wordsOf w = [w]
      exact wordsOf_goodWord w (h w (List.mem_cons_self _ _))
    | cons w2 rest2 =>
      show wordsOf (w ++ ' ' :: joinWords (w2 :: rest2)) = w :: w2 :: rest2
      rw [wordsOf_word_append w _ (h w (List.mem_cons_self _ _))]
      rw [ih (fun x hx => h x (List.mem_cons_of_mem _ hx))]

/-- Collapsing whitespace runs is idempotent. -/
theorem normWs_idem (s : Str) : normWs (normWs s) = normWs s := by
  unfold normWs
  rw [wordsOf_joinWords (wordsOf s) (wordsOf_good s)]

/-- Case folding maps whitespace to itself and non-whitespace to
non-whitespace. -/
theorem pyLowerChar_ws (c : Char) : charWs (pyLowerChar c) = charWs c := by
  unfold pyLowerChar
  cases hf : lowerTable.find? (fun p => p.1 = c) with
  | none => rfl
  | some p =>
    have hp : p ∈ lowerTable := List.mem_of_find?_eq_some hf
    have hpc := List.find?_some hf
    simp only [decide_eq_true_eq] at hpc
    subst hpc
    show charWs p.2 = charWs p.1
    fin_cases hp <;> rfl

/-- `str.split` commutes with a whitespace-preserving character map. -/
theorem wordsOf_map (f : Char → Char) (hf : ∀ c, charWs (f c) = charWs c) :
    ∀ (s : Str), wordsOf (s.map f) = (wordsOf s).map (List.map f) := by
  intro s
  induction s with
  | nil => rfl
  | cons c rest ih =>
    rw [List.map_cons]
    cases hc : charWs c with
    | true =>
      rw [wordsOf_cons_ws (by rw [hf]; exact hc), wordsOf_cons_ws hc, ih]
    | false =>
      have hfc : charWs (f c) = false := by rw [hf]; exact hc
      cases rest with
      | nil =>
        rw [List.map_nil, wordsOf_singleton hfc, wordsOf_singleton hc]
        rfl
      | cons d tl =>
        rw [List.map_cons]
        cases hd : charWs d with
        | true =>
          have hfd : charWs (f d) = true := by rw [hf]; exact hd
          rw [wordsOf_cons_cons_ws hfc hfd, wordsOf_cons_cons_ws hc hd]
          rw [← List.map_cons f d tl, ih]
          rfl
        | false =>
          have hfd : charWs (f d) = false := by rw [hf]; exact hd
          cases hws : wordsOf (d :: tl) with
          | nil => exact absurd hws (wordsOf_ne_nil hd)
          | cons w0 tl0 =>
            have hmap : wordsOf (f d :: tl.map f) = List.map f w0 :: tl0.map (List.map f) := by
              rw [← List.map_cons f d tl, ih, hws]
              rfl
            rw [wordsOf_cons_cons hfc hfd hmap, wordsOf_cons_cons hc hd hws]
            rfl

/-- Mapping a character function with `f ' ' = ' '` through a
space-join. -/
theorem map_joinWords (f : Char → Char) (hf : f ' ' = ' ') :
    ∀ (ws : List Str), (joinWords ws).map f = joinWords (ws.map (List.map f)) := by
  intro ws
  induction ws with
  | nil => rfl
  | cons w rest ih =>
    cases rest with
    | nil => rfl
    | cons w2 rest2 =>
      show (w ++ ' ' :: joinWords (w2 :: rest2)).map f =
        List.map f w ++ ' ' :: joinWords ((w2 :: rest2).map (List.map f))
      rw [List.map_append, List.map_cons, hf, ih]

theorem wordsOf_dropWhile_ws (s : Str) :
    wordsOf (s.dropWhile charWs) = wordsOf s := by
  induction s with
  | nil => rfl
  | cons c rest ih =>
    cases hc : charWs c with
    | true => rw [List.dropWhile_cons_of_pos hc, ih, wordsOf_cons_ws hc]
    | false => rw [List.dropWhile_cons_of_neg (by simp [hc])]

theorem wordsOf_all_ws : ∀ (run : Str), (∀ c ∈ run, charWs c = true) →
    wordsOf run = [] := by
  intro run
  induction run with
  | nil => intro _; rfl
  | cons c rest ih =>
    intro h
    rw [wordsOf_cons_ws (h c (List.mem_cons_self _ _))]
    exact ih (fun x hx => h x (List.mem_cons_of_mem _ hx))

theorem wordsOf_append_ws : ∀ (u run : Str), (∀ c ∈ run, charWs c = true) →
    wordsOf (u ++ run) = wordsOf u := by
  intro u
  induction u with
  | nil =>
    intro run h
    rw [List.nil_append]
    exact wordsOf_all_ws run h
  | cons c u' ih =>
    intro run h
    rw [List.cons_append]
    cases hc : charWs c with
    | true => rw [wordsOf_cons_ws hc, wordsOf_cons_ws hc, ih run h]
    | false =>
      cases u' with
      | nil =>
        cases hrun : run with
        | nil => rfl
        | cons r rest =>
          have hr : charWs r = true := by
            rw [hrun] at h
            exact h r (List.mem_cons_self _ _)
          show wordsOf (c :: r :: rest) = wordsOf [c]
          rw [wordsOf_cons_cons_ws hc hr, wordsOf_singleton hc]
          rw [show wordsOf (r :: rest) = [] from
            wordsOf_all_ws (r :: rest) (by rw [← hrun]; exact h)]
      | cons d u'' =>
        cases hd : charWs d with
        | true =>
          show wordsOf (c :: ((d :: u'') ++ run)) = wordsOf (c :: d :: u'')
          rw [List.cons_append, wordsOf_cons_cons_ws hc hd, wordsOf_cons_cons_ws hc hd]
          rw [← List.cons_append, ih run h]
        | false =>
          cases hws : wordsOf (d :: u'') with
          | nil => exact absurd hws (wordsOf_ne_nil hd)
          | cons w0 tl0 =>
            have happ : wordsOf ((d :: u'') ++ run) = w0 :: tl0 := by
              rw [ih run h, hws]
            rw [List.cons_append] at happ
            show wordsOf (c :: ((d :: u'') ++ run)) = wordsOf (c :: d :: u'')
            rw [List.cons_append, wordsOf_cons_cons hc hd happ,
              wordsOf_cons_cons hc hd hws]

theorem stripRight_decomp (t : Str) :
    t = (t.reverse.dropWhile charWs).reverse ++ (t.reverse.takeWhile charWs).reverse := by
  conv_lhs => rw [← List.reverse_reverse t,
    ← List.takeWhile_append_dropWhile charWs t.reverse]
  rw [List.reverse_append]

/-- `str.strip()` does not change `str.split()`. -/
theorem wordsOf_pyStrip (s : Str) : wordsOf (pyStrip s) = wordsOf s := by
  unfold pyStrip
  have hrun : ∀ c ∈ ((s.dropWhile charWs).reverse.takeWhile charWs).reverse,
      charWs c = true := by
    intro c hc
    rw [List.mem_reverse] at hc
    exact List.mem_takeWhile_imp hc
  calc wordsOf (((s.dropWhile charWs).reverse.dropWhile charWs).reverse)
      = wordsOf (((s.dropWhile charWs).reverse.dropWhile charWs).reverse ++
          ((s.dropWhile charWs).reverse.takeWhile charWs).reverse) :=
        (wordsOf_append_ws _ _ hrun).symm
    _ = wordsOf (s.dropWhile charWs) := by
        rw [← stripRight_decomp (s.dropWhile charWs)]
    _ = wordsOf s := wordsOf_dropWhile_ws s

/-! ### Claim C8 — NameNormalizer idempotence -/

/-- Counterexample to C8 as stated: the full pipeline is not idempotent.
On the candidate list ["Doutora Ana"] (with an empty chunk text) the
pipeline outputs ["Ana"] — stage 7 strips the leading title — but re-running
the pipeline on ["Ana"] discards the now single-token name in stage 1 and
returns []. -/
theorem namePipeline_not_idempotent :
    namePipeline (namePipeline [toStr "Doutora Ana"] []) [] ≠
      namePipeline [toStr "Doutora Ana"] [] := by
  decide

/-- C8 (amended): stage 4 of the pipeline — whitespace normalisation plus
exact dedup sorted by length (`normalize_and_deduplicate`) — is idempotent:
running it twice is a no-op.  The full pipeline is not idempotent (see the
counterexample): title-stripping can leave a single-token name that a
re-run's stage 1 then discards. -/
theorem normalize_and_deduplicate_idem (l : List Str) :
    normalize_and_deduplicate (normalize_and_deduplicate l) =
      normalize_and_deduplicate l := by
  unfold normalize_and_deduplicate
  have hmem : ∀ x ∈ List.insertionSort lenLe (l.map normWs).dedup, normWs x = x := by
    intro x hx
    rw [List.mem_insertionSort] at hx
    obtain ⟨y, hy, rfl⟩ := List.mem_map.mp (List.mem_dedup.mp hx)
    exact normWs_idem y
  have h1 : (List.insertionSort lenLe (l.map normWs).dedup).map normWs =
      List.insertionSort lenLe (l.map normWs).dedup := by
    conv_rhs => rw [← List.map_id (List.insertionSort lenLe (l.map normWs).dedup)]
    exact List.map_congr_left (fun a ha => hmem a ha)
  rw [h1]
  have hnd : (List.insertionSort lenLe (l.map normWs).dedup).Nodup :=
    (List.perm_insertionSort lenLe _).symm.nodup (List.nodup_dedup _)
  rw [hnd.dedup]
  exact (List.sorted_insertionSort lenLe _).insertionSort_eq

/-! ### Claim C10 — fallback names bypass the filtering stages -/

theorem memStr_true_iff (x : Str) (l : List Str) : memStr x l = true ↔ x ∈ l := by
  simp [memStr, List.any_eq_true]

theorem goodWord_map_lower {w : Str} (h : GoodWord w) :
    GoodWord (w.map pyLowerChar) := by
  refine ⟨by simpa using h.1, ?_⟩
  intro c hc
  obtain ⟨d, hd, rfl⟩ := List.mem_map.mp hc
  rw [pyLowerChar_ws]
  exact h.2 d hd

/-- Title-stripping preserves "contains no stoplist word" and
"whitespace-normalised": the stripped entity's words are a subset of the
original's, and the re-join is single-spaced. -/
theorem stripLeadingTitle_keeps (titlesLower : List Str) (e : Str)
    (hu : noUnwantedWord e = true) (hn : normWs e = e) :
    noUnwantedWord (stripLeadingTitle titlesLower e) = true ∧
      normWs (stripLeadingTitle titlesLower e) = stripLeadingTitle titlesLower e := by
  unfold stripLeadingTitle
  cases hws : wordsOf (pyStrip e) with
  | nil => exact ⟨hu, hn⟩
  | cons w ws =>
    dsimp only
    by_cases ht : memStr (pyRstripDots (pyLower w)) titlesLower = true
    · rw [if_pos ht]
      have hgood : ∀ x ∈ ws, GoodWord x := by
        intro x hx
        exact wordsOf_good (pyStrip e) x (by rw [hws]; exact List.mem_cons_of_mem _ hx)
      have hround : wordsOf (joinWords ws) = ws := wordsOf_joinWords ws hgood
      have hje : wordsOf (pyLower (joinWords ws)) = ws.map (List.map pyLowerChar) := by
        unfold pyLower
        rw [map_joinWords pyLowerChar (by decide) ws]
        exact wordsOf_joinWords _ (fun x hx => by
          obtain ⟨y, hy, rfl⟩ := List.mem_map.mp hx
          exact goodWord_map_lower (hgood y hy))
      have hee : wordsOf (pyLower e) = (w :: ws).map (List.map pyLowerChar) := by
        unfold pyLower
        rw [wordsOf_map pyLowerChar pyLowerChar_ws e, ← wordsOf_pyStrip e, hws]
      constructor
      · unfold noUnwantedWord at hu ⊢
        rw [hje]
        rw [hee] at hu
        simp only [Bool.not_eq_true', List.any_eq_false] at hu ⊢
        intro u hu'
        have hnot := hu u hu'
        intro hcontra
        rw [memStr_true_iff] at hcontra
        have hmem2 : memStr u ((w :: ws).map (List.map pyLowerChar)) = true := by
          rw [memStr_true_iff, List.map_cons]
          exact List.mem_cons_of_mem _ hcontra
        exact hnot hmem2
      · show normWs (joinWords ws) = joinWords ws
        unfold normWs
        rw [hround]
    · rw [if_neg ht]
      exact ⟨hu, hn⟩

/-- C10: When the filtering stages 1–5 leave an empty candidate list, the
names from the regex fallback enter the output subject only to
title-stripping — the pipeline's result is exactly the title-stripped
fallback extraction, bypassing the single-token, trim, dedup,
normalisation and unwanted-word stages.  Conversely, every tagger-derived
output (stages 1–5 non-empty) contains no stoplist word and is
whitespace-normalised; the concrete fallback-only chunk
"Doutor Ana Chefe" yields the name "Ana Chefe", which contains the
stoplist word "chefe" and so could never come out of the tagger path. -/
theorem fallback_bypasses_filters :
    (∀ (cands : List Str) (text : Str), pipelineStages15 cands = [] →
      namePipeline cands text =
        remove_titles_from_entities (fallback_regex_name_extraction text []) NAME_TITLES) ∧
    (∀ (cands : List Str) (text : Str) (n : Str), pipelineStages15 cands ≠ [] →
      n ∈ namePipeline cands text →
      noUnwantedWord n = true ∧ normWs n = n) ∧
    (namePipeline [] (toStr "Doutor Ana Chefe") = [toStr "Ana Chefe"] ∧
      noUnwantedWord (toStr "Ana Chefe") = false) := by
  refine ⟨?_, ?_, by decide, by decide⟩
  · intro cands text h
    unfold namePipeline
    show remove_titles_from_entities
        (if pipelineStages15 cands = [] then fallback_regex_name_extraction text []
         else pipelineStages15 cands) NAME_TITLES = _
    rw [if_pos h]
  · intro cands text n h hn
    rw [show namePipeline cands text = remove_titles_from_entities
        (if pipelineStages15 cands = [] then fallback_regex_name_extraction text []
         else pipelineStages15 cands) NAME_TITLES from rfl] at hn
    rw [if_neg h] at hn
    unfold remove_titles_from_entities at hn
    obtain ⟨e, he, rfl⟩ := List.mem_map.mp hn
    have he' : e ∈ remove_entities_with_unwanted_words
        (normalize_and_deduplicate
          (keep_shortest_entities
            ((remove_single_word_entities cands).map
              (fun p => trim_after_keywords p TRIM_KEYWORDS)))) := he
    unfold remove_entities_with_unwanted_words at he'
    have hfil := List.mem_filter.mp he'
    have hu : noUnwantedWord e = true := hfil.2
    have hc4 := hfil.1
    unfold normalize_and_deduplicate at hc4
    rw [List.mem_insertionSort] at hc4
    obtain ⟨y, hy, rfl⟩ := List.mem_map.mp (List.mem_dedup.mp hc4)
    exact stripLeadingTitle_keeps (NAME_TITLES.map pyLower) (normWs y) hu (normWs_idem y)

/-- Witness for C10: the bypass branch at a chunk whose only candidate is
single-token (fallback output enters via title-stripping only), and the
tagger branch at candidate "Ana Maria" (kept, stoplist-free and
whitespace-normalised). -/
theorem fallback_bypasses_filters_witness :
    (pipelineStages15 [toStr "Maria"] = [] ∧
      namePipeline [toStr "Maria"] (toStr "Doutor Ana Chefe") =
        remove_titles_from_entities
          (fallback_regex_name_extraction (toStr "Doutor Ana Chefe") []) NAME_TITLES) ∧
    (pipelineStages15 [toStr "Ana Maria"] ≠ [] ∧
      toStr "Ana Maria" ∈ namePipeline [toStr "Ana Maria"] [] ∧
      noUnwantedWord (toStr "Ana Maria") = true ∧
      normWs (toStr "Ana Maria") = toStr "Ana Maria") :=
  ⟨⟨by decide,
    fallback_bypasses_filters.1 [toStr "Maria"] (toStr "Doutor Ana Chefe") (by decide)⟩,
   ⟨by decide, by decide,
    fallback_bypasses_filters.2.1 [toStr "Ana Maria"] [] (toStr "Ana Maria")
      (by decide) (by decide)⟩⟩

/-! ### Claim C2 — chunk spans are contiguous within a section -/

/-- Some SECTION_BANNER entity of the document starts exactly at
position `p` (the gap after a chunk starts with banner text). -/
def BannerAt (doc : SDoc) (p : Nat) : Prop :=
  ∃ b ∈ allEntsSorted doc, b.label = "SECRETARIA" ∧ b.start = p

instance (doc : SDoc) (p : Nat) : Decidable (BannerAt doc p) :=
  inferInstanceAs
    (Decidable (∃ b ∈ allEntsSorted doc, b.label = "SECRETARIA" ∧ b.start = p))

theorem mem_insertByStart {x e : SEnt} {l : List SEnt} :
    x ∈ insertByStart e l ↔ x = e ∨ x ∈ l := by
  induction l with
  | nil => simp [insertByStart]
  | cons a l ih =>
    unfold insertByStart
    split
    · simp [List.mem_cons]
    · rw [List.mem_cons, ih, List.mem_cons]
      tauto

theorem mem_sortByStart {x : SEnt} {l : List SEnt} :
    x ∈ sortByStart l ↔ x ∈ l := by
  induction l with
  | nil => simp [sortByStart]
  | cons a l ih =>
    show x ∈ insertByStart a (sortByStart l) ↔ _
    rw [mem_insertByStart, ih, List.mem_cons]

/-- The spine of C2: walking any entity list whose act-header titles are
pairwise distinct, consecutive emitted entries either touch
(`stop = start`) or the gap begins at a banner position. -/
theorem groupGoS_chain (docLen : Nat) (BA : Nat → Prop) :
    ∀ (ents : List SEnt) (cur : Option Str) (res : List EntrySpan),
      (∀ e ∈ ents, e.label = "SECRETARIA" ∨ e.label = "DES") →
      ((ents.filter (fun e => e.label = "DES")).map keyOfEnt).Nodup →
      (∀ e ∈ ents, e.label = "DES" → hasKeyS res (keyOfEnt e) = false) →
      (∀ e ∈ ents, e.label = "SECRETARIA" → BA e.start) →
      List.Chain' (fun a b => a.stop = b.start ∨ BA a.stop) res →
      (∀ ε, res.getLast? = some ε →
        (BA ε.stop ∨ (∃ h t, ents = h :: t ∧ ε.stop = h.start) ∨ ents = [])) →
      (res ≠ [] → truthy cur = true ∨ (∀ ε, res.getLast? = some ε → BA ε.stop)) →
      List.Chain' (fun a b => a.stop = b.start ∨ BA a.stop) (groupGoS docLen cur ents res) := by
  intro ents
  induction ents with
  | nil =>
    intro cur res _ _ _ _ hchain _ _
    exact hchain
  | cons e rest ih =>
    intro cur res hlab hnd hdisj hba hchain hlink hI4
    rw [groupGoS.eq_def]
    dsimp only
    by_cases hsec : e.label = "SECRETARIA"
    · rw [if_pos hsec]
      apply ih (some e.text) res
      · exact fun f hf => hlab f (List.mem_cons_of_mem _ hf)
      · have hnotdes : ¬ (e.label = "DES") := by rw [hsec]; decide
        rwa [List.filter_cons_of_neg (by simpa using hnotdes)] at hnd
      · exact fun f hf hfd => hdisj f (List.mem_cons_of_mem _ hf) hfd
      · exact fun f hf hfs => hba f (List.mem_cons_of_mem _ hf) hfs
      · exact hchain
      · intro ε hε
        rcases hlink ε hε with h | ⟨h0, t0, heq, hstop⟩ | h
        · exact Or.inl h
        · injection heq with he _
          subst he
          left
          rw [hstop]
          exact hba e (List.mem_cons_self _ _) hsec
        · exact absurd h (by simp)
      · intro _
        right
        intro ε hε
        rcases hlink ε hε with h | ⟨h0, t0, heq, hstop⟩ | h
        · exact h
        · injection heq with he _
          subst he
          rw [hstop]
          exact hba e (List.mem_cons_self _ _) hsec
        · exact absurd h (by simp)
    · rw [if_neg hsec]
      by_cases hdt : (decide (e.label = "DES") && truthy cur) = true
      · rw [if_pos hdt]
        rw [Bool.and_eq_true, decide_eq_true_eq] at hdt
        obtain ⟨hdes, htr⟩ := hdt
        have hkey : hasKeyS res (keyOfEnt e) = false :=
          hdisj e (List.mem_cons_self _ _) hdes
        rw [if_neg (by simp [hkey])]
        rw [List.filter_cons_of_pos (by simpa using hdes), List.map_cons,
          List.nodup_cons] at hnd
        obtain ⟨hnotin, hndrest⟩ := hnd
        apply ih cur
        · exact fun f hf => hlab f (List.mem_cons_of_mem _ hf)
        · exact hndrest
        · intro f hf hfd
          have h1 : hasKeyS res (keyOfEnt f) = false :=
            hdisj f (List.mem_cons_of_mem _ hf) hfd
          have h2 : keyOfEnt e ≠ keyOfEnt f := by
            intro hcontra
            apply hnotin
            rw [hcontra]
            exact List.mem_map_of_mem keyOfEnt
              (List.mem_filter.mpr ⟨hf, by simpa using hfd⟩)
          simp only [hasKeyS, List.any_append, Bool.or_eq_false_iff]
          constructor
          · exact h1
          · simp [h2]
        · exact fun f hf hfs => hba f (List.mem_cons_of_mem _ hf) hfs
        · rw [List.chain'_append]
          refine ⟨hchain, List.chain'_singleton _, ?_⟩
          intro x hx y hy
          simp only [List.head?_cons, Option.mem_def, Option.some.injEq] at hy
          subst hy
          rcases hlink x hx with h | ⟨h0, t0, heq, hstop⟩ | h
          · exact Or.inr h
          · injection heq with he _
            subst he
            exact Or.inl hstop
          · exact absurd h (by simp)
        · intro ε hε
          rw [List.getLast?_concat] at hε
          injection hε with hε
          subst hε
          cases rest with
          | nil => exact Or.inr (Or.inr rfl)
          | cons f t => exact Or.inr (Or.inl ⟨f, t, rfl, rfl⟩)
        · intro _
          exact Or.inl htr
      · rw [if_neg hdt]
        apply ih cur res
        · exact fun f hf => hlab f (List.mem_cons_of_mem _ hf)
        · by_cases hdes : e.label = "DES"
          · rw [List.filter_cons_of_pos (by simpa using hdes), List.map_cons,
              List.nodup_cons] at hnd
            exact hnd.2
          · rwa [List.filter_cons_of_neg (by simpa using hdes)] at hnd
        · exact fun f hf hfd => hdisj f (List.mem_cons_of_mem _ hf) hfd
        · exact fun f hf hfs => hba f (List.mem_cons_of_mem _ hf) hfs
        · exact hchain
        · intro ε hε
          rcases hlink ε hε with h | ⟨h0, t0, heq, hstop⟩ | h
          · exact Or.inl h
          · injection heq with he _
            subst he
            left
            have hne : res ≠ [] := by
              intro hnil
              rw [hnil] at hε
              cases hε
            rcases hlab e (List.mem_cons_self _ _) with hl | hl
            · exact absurd hl hsec
            · have htrf : truthy cur = false := by
                revert hdt
                simp [hl]
              rcases hI4 hne with h4 | h4
              · rw [htrf] at h4
                cases h4
              · rw [hstop]
                have := h4 ε hε
                rw [← hstop]
                exact hstop ▸ this
          · exact absurd h (by simp)
        · exact hI4

theorem hasKey_map_toMetaEntry (tagger : Str → List Str) (tokens : List SToken)
    (filename : Str) (resS : List EntrySpan) (k : Str) :
    hasKey (resS.map (toMetaEntry tagger tokens filename)) k = hasKeyS resS k := by
  unfold hasKey hasKeyS
  induction resS with
  | nil => rfl
  | cons es t ih =>
    rw [List.map_cons, List.any_cons, List.any_cons, ih]
    rfl

/-- The record dict built by `group_by_despacho_with_metadata` is the
metadata image of the ghost span walk: every Entry's chunk is computed
from its span `[start, stop)` recorded by `groupGoS`. -/
theorem groupGo_eq_map (tagger : Str → List Str) (tokens : List SToken)
    (docLen : Nat) (filename : Str) :
    ∀ (ents : List SEnt) (cur : Option Str) (resS : List EntrySpan),
      groupGo tagger tokens docLen filename cur ents
          (resS.map (toMetaEntry tagger tokens filename)) =
        (groupGoS docLen cur ents resS).map (toMetaEntry tagger tokens filename) := by
  intro ents
  induction ents with
  | nil => intro cur resS; rfl
  | cons e rest ih =>
    intro cur resS
    rw [groupGo.eq_def, groupGoS.eq_def]
    dsimp only
    by_cases hsec : e.label = "SECRETARIA"
    · rw [if_pos hsec, if_pos hsec]
      exact ih _ _
    · rw [if_neg hsec, if_neg hsec]
      by_cases hdt : (decide (e.label = "DES") && truthy cur) = true
      · rw [if_pos hdt, if_pos hdt]
        rw [hasKey_map_toMetaEntry]
        by_cases hk : hasKeyS resS (keyOfEnt e) = true
        · rw [if_pos hk, if_pos hk]
          exact ih _ _
        · rw [if_neg hk, if_neg hk]
          rw [show resS.map (toMetaEntry tagger tokens filename) ++
              [(keyOfEnt e,
                [metaFor tagger tokens filename (cur.getD []) e (entStop docLen rest)])] =
              (resS ++
                  [(⟨keyOfEnt e, e.start, entStop docLen rest, cur.getD []⟩ :
                    EntrySpan)]).map
                (toMetaEntry tagger tokens filename) from by
            rw [List.map_append]
            rfl]
          exact ih _ _
      · rw [if_neg hdt, if_neg hdt]
        exact ih _ _

/-- C2 (amended): the Entry dict is the metadata image of the ghost span
walk, and — provided no two act-header entities share a (newline-stripped)
title — consecutive emitted chunk spans are contiguous except at section
banners: each entry's span ends exactly where the next begins, or the gap
starts at a SECTION_BANNER position.  Duplicate titles break the original
claim (see the counterexample): the deduplicated later occurrence's span
is covered by no Entry. -/
theorem section_spans_contiguous :
    (∀ (tagger : Str → List Str) (doc : SDoc) (filename : Str),
      group_by_despacho_with_metadata tagger doc filename =
        (groupSpans doc).map (toMetaEntry tagger doc.tokens filename)) ∧
    (∀ doc : SDoc,
      (((allEntsSorted doc).filter (fun e => e.label = "DES")).map keyOfEnt).Nodup →
      List.Chain' (fun a b => a.stop = b.start ∨ BannerAt doc a.stop) (groupSpans doc)) := by
  constructor
  · intro tagger doc filename
    exact groupGo_eq_map tagger doc.tokens doc.tokens.length filename
      (allEntsSorted doc) none []
  · intro doc hnd
    have h0 : ∀ e ∈ allEntsSorted doc, e.label = "SECRETARIA" ∨ e.label = "DES" := by
      intro e he
      have he' := he
      unfold allEntsSorted at he'
      rw [mem_sortByStart] at he'
      rcases List.mem_append.mp he' with h | h
      · exact Or.inl (by simpa using (List.mem_filter.mp h).2)
      · exact Or.inr (by simpa using (List.mem_filter.mp h).2)
    have h3 : ∀ e ∈ allEntsSorted doc, e.label = "SECRETARIA" → BannerAt doc e.start := by
      intro e he hsec
      exact show ∃ b ∈ allEntsSorted doc, b.label = "SECRETARIA" ∧ b.start = e.start from
        ⟨e, he, hsec, rfl⟩
    exact groupGoS_chain doc.tokens.length (BannerAt doc) (allEntsSorted doc) none []
      h0 hnd (fun e _ _ => rfl) h3 List.chain'_nil
      (fun ε hε => by cases hε) (fun h => absurd rfl h)

/-- A document with a duplicate act-header title inside one section:
banner "S" at token 0, then "DES" entities titled "A" (tokens 1–2),
"A" again (2–3) and "B" (3–4), in a five-token document. -/
def ceDocGap : SDoc :=
  ⟨[⟨toStr "t", toStr " "⟩, ⟨toStr "t", toStr " "⟩, ⟨toStr "t", toStr " "⟩,
    ⟨toStr "t", toStr " "⟩, ⟨toStr "t", []⟩],
   [⟨"SECRETARIA", toStr "S", 0, 1⟩, ⟨"DES", toStr "A", 1, 2⟩,
    ⟨"DES", toStr "A", 2, 3⟩, ⟨"DES", toStr "B", 3, 4⟩]⟩

/-- Counterexample to C2 as stated: in `ceDocGap` the section "S" has
entries with spans [1,2) and [3,5); the duplicate header "A" at [2,3) is
deduplicated away, leaving a gap [2,3) that is not banner text, so
concatenating the section's chunk spans does not reconstruct a contiguous
subrange. -/
theorem duplicate_title_creates_gap :
    groupSpans ceDocGap =
      [⟨toStr "A", 1, 2, toStr "S"⟩, ⟨toStr "B", 3, 5, toStr "S"⟩] ∧
    ¬ List.Chain' (fun a b => a.stop = b.start ∨ BannerAt ceDocGap a.stop)
        (groupSpans ceDocGap) := by
  have hspans : groupSpans ceDocGap =
      [⟨toStr "A", 1, 2, toStr "S"⟩, ⟨toStr "B", 3, 5, toStr "S"⟩] := by decide
  refine ⟨hspans, ?_⟩
  rw [hspans, List.chain'_cons]
  rintro ⟨h | h, -⟩
  · exact absurd h (by decide)
  · obtain ⟨b, hb, hlab, hstart⟩ := h
    have hents : allEntsSorted ceDocGap =
        [⟨"SECRETARIA", toStr "S", 0, 1⟩, ⟨"DES", toStr "A", 1, 2⟩,
         ⟨"DES", toStr "A", 2, 3⟩, ⟨"DES", toStr "B", 3, 4⟩] := by decide
    rw [hents] at hb
    fin_cases hb <;> simp_all

/-- Witness for C2's amended theorem at a concrete document with distinct
titles: banner "S" then headers "A" and "B" — their spans [1,2) and [2,3)
are adjacent. -/
theorem section_spans_contiguous_witness :
    (((allEntsSorted
        ⟨[⟨toStr "t", toStr " "⟩, ⟨toStr "t", toStr " "⟩, ⟨toStr "t", []⟩],
         [⟨"SECRETARIA", toStr "S", 0, 1⟩, ⟨"DES", toStr "A", 1, 2⟩,
          ⟨"DES", toStr "B", 2, 3⟩]⟩).filter
        (fun e => e.label = "DES")).map keyOfEnt).Nodup ∧
    List.Chain'
      (fun a b => a.stop = b.start ∨ BannerAt
        ⟨[⟨toStr "t", toStr " "⟩, ⟨toStr "t", toStr " "⟩, ⟨toStr "t", []⟩],
         [⟨"SECRETARIA", toStr "S", 0, 1⟩, ⟨"DES", toStr "A", 1, 2⟩,
          ⟨"DES", toStr "B", 2, 3⟩]⟩ a.stop)
      (groupSpans
        ⟨[⟨toStr "t", toStr " "⟩, ⟨toStr "t", toStr " "⟩, ⟨toStr "t", []⟩],
         [⟨"SECRETARIA", toStr "S", 0, 1⟩, ⟨"DES", toStr "A", 1, 2⟩,
          ⟨"DES", toStr "B", 2, 3⟩]⟩) :=
  ⟨by decide,
   section_spans_contiguous.2
     ⟨[⟨toStr "t", toStr " "⟩, ⟨toStr "t", toStr " "⟩, ⟨toStr "t", []⟩],
      [⟨"SECRETARIA", toStr "S", 0, 1⟩, ⟨"DES", toStr "A", 1, 2⟩,
       ⟨"DES", toStr "B", 2, 3⟩]⟩ (by decide)⟩
